import Mathlib

/-!
Verification of the two toy Turing-machine interpreters embedded in
src/20210510_constexpr.cpp: the Template Turing Machine (TTM), whose tape is
a pair of symbol lists extended with blanks on demand, and the constexpr
Turing Machine (CTM), whose tape is a fixed array of 128 characters.

All definitions below are shallow embeddings of the C++ source: template
metafunctions on Tape<...> become list functions, the constexpr run loop
becomes a fuelled step function, and thrown exceptions become error results
carrying the thrown message.
-/

/-! ## Symbols, states and moves (enum State, enum Symbol, enum Move) -/

/-- Symbol blank = ' ': default symbol on an empty tape. -/
def blank : Char := ' '

/-- Symbol zero = '0'. -/
def zero : Char := '0'

/-- Symbol one = '1'. -/
def one : Char := '1'

/-- Symbol any = '?': for input symbol matching, matches anything. -/
def anySym : Char := '?'

/-- Symbol nothing = '*': for output symbol writing, means do not write. -/
def noWrite : Char := '*'

/-- Symbol erased = '_'. -/
def erased : Char := '_'

/-- enum State : int, with Halt = -1 and Init = 0; other states are ints. -/
abbrev MState : Type := Int

/-- State Halt = -1. -/
def Halt : MState := -1

/-- State Init = 0. -/
def Init : MState := 0

/-- enum Move: the head over the tape can be moved. -/
inductive Move where
  | left : Move
  | none : Move
  | right : Move
deriving DecidableEq, Repr

/-! ## The Template Turing Machine (TTM) -/

/-- Instruction<state, input, output, move, next>. -/
structure Instr where
  state : MState
  input : Char
  output : Char
  move : Move
  next : MState
deriving DecidableEq, Repr

/-- head<Tape>: first symbol of the tape; a blank when the tape is empty
(which implicitly makes the tape longer). -/
def headT : List Char → Char
  | [] => blank
  | s :: _ => s

/-- dropFirst<Tape>: drop the first element of the tape. -/
def dropFirstT : List Char → List Char
  | [] => []
  | _ :: rest => rest

/-- append<symbol, Tape>: append a symbol at the end of the tape. -/
def appendT (s : Char) (t : List Char) : List Char := t ++ [s]

/-- prepend<symbol, Tape>: prepend a symbol to the tape. -/
def prependT (s : Char) (t : List Char) : List Char := s :: t

/-- dropLast<Tape>: drop the last element of the tape (identity on the
empty tape). -/
def dropLastT : List Char → List Char
  | [] => []
  | [_] => []
  | s0 :: s1 :: rest => s0 :: dropLastT (s1 :: rest)

/-- last<Tape>: last element of the tape; a blank when the tape is empty
(which effectively makes the tape of infinite length). -/
def lastT : List Char → Char
  | [] => blank
  | [s] => s
  | _ :: s1 :: rest => lastT (s1 :: rest)

/-- set<symbol, Tape>: replace the first symbol of the tape, except that
setting the 'nothing' symbol leaves the tape unchanged. -/
def setT (s : Char) (t : List Char) : List Char :=
  if s = noWrite then t else prependT s (dropFirstT t)

/-- An instruction matches the machine when its state equals the current
state and its input symbol equals the symbol under the head or is the
wildcard. This is the matching relation used by find<Program, state, input>. -/
def Matches (i : Instr) (st : MState) (sym : Char) : Prop :=
  i.state = st ∧ (i.input = sym ∨ i.input = anySym)

instance (i : Instr) (st : MState) (sym : Char) : Decidable (Matches i st sym) := by
  unfold Matches; infer_instance

/-- find<Program, state, input>: the first instruction of the program that
matches the given state and input (exactly, or via the wildcard input). -/
def ttmFind : List Instr → MState → Char → Option Instr
  | [], _, _ => Option.none
  | i :: rest, st, sym =>
      if Matches i st sym then some i else ttmFind rest st sym

/-- Machine<Program, TapeLeft, TapeRight, state>. The symbol under the head
is the first symbol of the right part of the tape. -/
structure TM where
  prog : List Instr
  left : List Char
  right : List Char
  state : MState
deriving DecidableEq, Repr

/-- execute<Machine, Instruction>: write the output symbol (unless it is
'nothing'), move the head, and proceed to the next state. -/
def ttmExecute (m : TM) (i : Instr) : TM :=
  match i.move with
  | Move.none =>
      ⟨m.prog, m.left, setT i.output m.right, i.next⟩
  | Move.left =>
      ⟨m.prog, dropLastT m.left,
        prependT (lastT m.left) (setT i.output m.right), i.next⟩
  | Move.right =>
      ⟨m.prog, appendT (headT (setT i.output m.right)) m.left,
        dropFirstT (setT i.output m.right), i.next⟩

/-- Result of running the TTM with a fuel bound: the recursive type
Machine::run either reaches Halt, or has no matching instruction (a compile
error in the C++ template code), or the fuel runs out. -/
inductive TTMResult where
  | halted : TM → TTMResult
  | noMatch : MState → Char → TTMResult
  | outOfFuel : TTMResult
deriving DecidableEq, Repr

/-- Machine::run: repeatedly find the next matching instruction and execute
it, until the Halt state is encountered. -/
def ttmRun : Nat → TM → TTMResult
  | 0, _ => TTMResult.outOfFuel
  | n + 1, m =>
      if m.state = Halt then TTMResult.halted m
      else
        match ttmFind m.prog m.state (headT m.right) with
        | Option.none => TTMResult.noMatch m.state (headT m.right)
        | some i => ttmRun n (ttmExecute m i)

/-- The Normalized Measurement program of TTM_measure. -/
def measureProg : List Instr :=
  [⟨Init, anySym, noWrite, Move.left, 1⟩,
   ⟨1, blank, 'm', Move.left, 2⟩,
   ⟨2, blank, 'n', Move.left, 3⟩,
   ⟨3, blank, zero, Move.right, 4⟩,
   ⟨4, 'm', noWrite, Move.right, 5⟩,
   ⟨4, anySym, noWrite, Move.right, 4⟩,
   ⟨5, one, erased, Move.left, 6⟩,
   ⟨5, blank, noWrite, Move.none, Halt⟩,
   ⟨5, anySym, erased, Move.right, 5⟩,
   ⟨6, 'n', noWrite, Move.left, 7⟩,
   ⟨6, anySym, noWrite, Move.left, 6⟩,
   ⟨7, one, zero, Move.left, 7⟩,
   ⟨7, anySym, one, Move.right, 4⟩]

/-- TTM<Program, Input> = Machine<Program, Tape<>, Input, Init>, specialised
to the Normalized Measurement program. -/
def ttmMeasure (input : List Char) : TM :=
  ⟨measureProg, [], input, Init⟩

/-! ## The constexpr Turing Machine (CTM) -/

/-- The nul character terminating C strings. -/
def nulChar : Char := Char.ofNat 0

/-- CTM::TapeLength = 128. -/
def TapeLength : Nat := 128

/-- CTM::strlen: length of a C string up to the first nul character. -/
def ctmStrlen : List Char → Nat
  | [] => 0
  | c :: s => if c = nulChar then 0 else ctmStrlen s + 1

/-- CTM::CTM(char const* program): throws "No program specified" on a null
pointer (modelled as Option.none) and "Invalid program" when the program
length is not a multiple of five; otherwise stores the program. -/
def ctmNew : Option (List Char) → Except String (List Char)
  | Option.none => Except.error "No program specified"
  | some p =>
      if ctmStrlen p % 5 ≠ 0 then Except.error "Invalid program"
      else Except.ok p

/-- The copy loop of CTM::run: for(i = 0; input[i] && i + head < tape.size();
i++) tape[head + i] = input[i]; with head = 64. -/
def ctmCopy : List Char → Nat → List Char → List Char
  | tape, _, [] => tape
  | tape, i, c :: cs =>
      if 64 + i < TapeLength then ctmCopy (tape.set (64 + i) c) (i + 1) cs
      else tape

/-- The tape at the start of CTM::run: 128 blanks with the input copied in
starting at the middle cell 64. -/
def ctmInitTape (input : List Char) : List Char :=
  ctmCopy (List.replicate TapeLength blank) 0 input

/-- A running configuration of CTM::run: the tape array, the head index and
the current state character. -/
structure CTMCfg where
  tape : List Char
  head : Nat
  state : Char
deriving DecidableEq, Repr

/-- The instruction scan of CTM::run: for(; *instr; instr += 5U), stopping
at the first 5-character instruction whose first character equals the state
and whose second character is '?' or equals the symbol under the head;
returns its output symbol, move character and next state. -/
def ctmFind : List Char → Char → Char → Option (Char × Char × Char)
  | c0 :: c1 :: c2 :: c3 :: c4 :: rest, st, sym =>
      if c0 = nulChar then Option.none
      else if c0 = st ∧ (c1 = anySym ∨ c1 = sym) then some (c2, c3, c4)
      else ctmFind rest st sym
  | _, _, _ => Option.none

/-- One outcome of an iteration of the while(true) loop in CTM::run. -/
inductive CTMRes where
  | ok : List Char → CTMRes
  | err : String → CTMRes
  | more : CTMCfg → CTMRes
deriving DecidableEq, Repr

/-- The tape update of CTM::run: if(instr[2] != nothing) tape[head] =
instr[2]. -/
def ctmWrite (tape : List Char) (head : Nat) (o : Char) : List Char :=
  if o ≠ noWrite then tape.set head o else tape

/-- One iteration of the loop of CTM::run: find the instruction (throwing
"Invalid program" when none matches), write the output symbol unless it is
'nothing', move the head (throwing "Out of memory" past either tape end),
update the state, and return the tape when the state becomes 'H'. -/
def ctmStep (prog : List Char) : CTMCfg → CTMRes
  | ⟨tape, head, state⟩ =>
      match ctmFind prog state (tape.getD head blank) with
      | Option.none => CTMRes.err "Invalid program"
      | some (o, mv, nx) =>
          if mv = 'R' then
            if TapeLength - 1 ≤ head then CTMRes.err "Out of memory"
            else if nx = 'H' then CTMRes.ok (ctmWrite tape head o)
            else CTMRes.more ⟨ctmWrite tape head o, head + 1, nx⟩
          else if mv = 'L' then
            if head = 0 then CTMRes.err "Out of memory"
            else if nx = 'H' then CTMRes.ok (ctmWrite tape head o)
            else CTMRes.more ⟨ctmWrite tape head o, head - 1, nx⟩
          else if nx = 'H' then CTMRes.ok (ctmWrite tape head o)
          else CTMRes.more ⟨ctmWrite tape head o, head, nx⟩

/-- The while(true) loop of CTM::run, bounded by fuel; Option.none means the
fuel ran out before the loop finished. -/
def ctmRun (prog : List Char) : Nat → CTMCfg → Option (Except String (List Char))
  | 0, _ => Option.none
  | n + 1, c =>
      match ctmStep prog c with
      | CTMRes.ok t => some (Except.ok t)
      | CTMRes.err e => some (Except.error e)
      | CTMRes.more c' => ctmRun prog n c'

/-- CTM::run(input) from its start: blank tape, input copied at cell 64,
head at 64, state '0'. -/
def ctmRunFull (prog input : List Char) (fuel : Nat) :
    Option (Except String (List Char)) :=
  ctmRun prog fuel ⟨ctmInitTape input, 64, '0'⟩

/-- The Normalized Measurement program of the CTM (constexpr CTM
ctm_measure). -/
def ctmMeasureProg : List Char :=
  ("0?*L1" ++ "1 mL2" ++ "2 nL3" ++ "3 0R4" ++ "4m*R5" ++ "4?*R4" ++
   "51_L6" ++ "5 *NH" ++ "5?_R5" ++ "6n*L7" ++ "6?*L6" ++ "710L7" ++
   "7?1R4").toList

/-! ## Derived notions used in the statements -/

/-- m reaches m' when running m for some k extra steps continues exactly as
running m'. -/
def Reaches (m m' : TM) : Prop :=
  ∃ k, ∀ n, ttmRun (n + k) m = ttmRun n m'

/-- The binary digits of a number, least significant bit first; empty for 0. -/
def bitsL : Nat → List Char
  | 0 => []
  | n + 1 =>
      (if (n + 1) % 2 = 1 then one else zero) :: bitsL ((n + 1) / 2)
decreasing_by exact Nat.div_lt_self (Nat.succ_pos n) (by decide)

/-- Increment a binary number given least significant bit first. -/
def incB : List Char → List Char
  | [] => [one]
  | c :: rest => if c = one then zero :: incB rest else one :: rest

/-- The binary digits of a number as the measurement program writes them:
most significant bit first, and the single digit 0 for the count 0. -/
def digits (c : Nat) : List Char :=
  if c = 0 then [zero] else (bitsL c).reverse

/-- The cell k places left of the TTM head (k = 0 is the nearest); blank
beyond the recorded left part of the tape. -/
def leftCell (m : TM) (k : Nat) : Char :=
  m.left.reverse.getD k blank

/-- The cell k places right of the TTM head (k = 0 is the cell under the
head); blank beyond the recorded right part of the tape. -/
def rightCell (m : TM) (k : Nat) : Char :=
  m.right.getD k blank

/-- The symbol the selected instruction leaves in the cell k places right of
the head, before any head move: the output symbol at k = 0 unless it is
'nothing'. -/
def writtenCell (m : TM) (i : Instr) (k : Nat) : Char :=
  if k = 0 ∧ i.output ≠ noWrite then i.output else rightCell m k

/-- Decidable equality of run results. -/
instance {ε α : Type} [DecidableEq ε] [DecidableEq α] : DecidableEq (Except ε α) :=
  fun x y =>
    match x, y with
    | Except.ok a, Except.ok b =>
        if h : a = b then isTrue (by rw [h])
        else isFalse (fun hc => h (Except.ok.inj hc))
    | Except.error a, Except.error b =>
        if h : a = b then isTrue (by rw [h])
        else isFalse (fun hc => h (Except.error.inj hc))
    | Except.ok _, Except.error _ => isFalse (fun hc => Except.noConfusion hc)
    | Except.error _, Except.ok _ => isFalse (fun hc => Except.noConfusion hc)

/-! ## Theorems -/

set_option maxRecDepth 10000

/-- Claim C7: running the Normalized Measurement program on an empty input
tape halts and produces the output tape 0nm (and nothing else on the tape). -/
theorem ttm_measure_empty :
    ttmRun 100 (ttmMeasure []) =
      TTMResult.halted ⟨measureProg, ['0', 'n', 'm'], [], Halt⟩ := by decide

/-- Claim C6 (amended): on the 23-symbol input 01101110001110101110011 as it
is laid out in the source, the Normalized Measurement program halts with the
tape reading 1110nm (the count 14 in binary, then the marker) followed by the
23 erasure marks left where the input was. -/
theorem ttm_measure_source_input :
    ttmRun 1000 (ttmMeasure "01101110001110101110011".toList) =
      TTMResult.halted ⟨measureProg,
        ['1', '1', '1', '0', 'n', 'm'] ++ List.replicate 23 '_', [], Halt⟩ := by
  decide

/-- Claim C6 (counterexample): on the literal 24-symbol string
011011100011101011100 11 (with its embedded blank), the program stops at the
blank and the tape reads 1100nm (the count 12 in binary), not 1110nm. -/
theorem ttm_measure_spaced_input :
    ttmRun 1000 (ttmMeasure "011011100011101011100 11".toList) =
      TTMResult.halted ⟨measureProg,
        ['1', '1', '0', '0', 'n', 'm'] ++ List.replicate 21 '_',
        [' ', '1', '1'], Halt⟩ ∧
    (['1', '1', '0', '0', 'n', 'm'] : List Char) ≠ ['1', '1', '1', '0', 'n', 'm'] := by
  decide

/-- Claim C2 (counterexample): the valid program 0?*L0 run on the empty input
fails with "Out of memory" after walking the head off the left end of the
128-cell tape: a third outcome besides halting and NoMatchingInstruction. -/
theorem ctm_left_walk_out_of_memory :
    ctmRunFull "0?*L0".toList [] 100 = some (Except.error "Out of memory") ∧
    ("Out of memory" : String) ≠ "Invalid program" := by decide

/-- Claim C3 (counterexample): in the constexpr interpreter a head move can
fail: the valid program 0?*R0 walks the head off the right end of the
128-cell tape and execution fails with "Out of memory". -/
theorem ctm_right_walk_out_of_memory :
    ctmRunFull "0?*R0".toList [] 100 = some (Except.error "Out of memory") := by
  decide

/-- Claim C4 (counterexample): when no instruction matches, the thrown error
is the generic "Invalid program", byte for byte the same message the
constructor throws for a bad program length; it identifies neither the state
nor the symbol. -/
theorem ctm_no_match_same_message :
    ctmRunFull "01*NH".toList [] 10 = some (Except.error "Invalid program") ∧
    ctmNew (some "huh?".toList) = Except.error "Invalid program" := by decide

/-! ### Reachability infrastructure for the TTM -/

/-- Reachability is reflexive. -/
theorem reaches_refl (m : TM) : Reaches m m := ⟨0, fun _ => rfl⟩

/-- Reachability is transitive. -/
theorem reaches_trans {a b c : TM} (h1 : Reaches a b) (h2 : Reaches b c) :
    Reaches a c := by
  obtain ⟨k1, hk1⟩ := h1
  obtain ⟨k2, hk2⟩ := h2
  refine ⟨k1 + k2, fun n => ?_⟩
  have h : n + (k1 + k2) = n + k2 + k1 := by omega
  rw [h, hk1, hk2]

/-- A single non-halting step with a found instruction is a reachability
step. -/
theorem reaches_step {m : TM} {i : Instr} (h1 : ¬ m.state = Halt)
    (h2 : ttmFind m.prog m.state (headT m.right) = some i) :
    Reaches m (ttmExecute m i) :=
  ⟨1, fun n => by simp [ttmRun, h1, h2]⟩

/-- A single step, with the executed machine given explicitly. -/
theorem reaches_step_to {m m' : TM} {i : Instr} (h1 : ¬ m.state = Halt)
    (h2 : ttmFind m.prog m.state (headT m.right) = some i)
    (h3 : ttmExecute m i = m') : Reaches m m' :=
  h3 ▸ reaches_step h1 h2

/-- Reaching a halted machine determines the run result for some fuel. -/
theorem reaches_halted {m m' : TM} (h : Reaches m m') (hh : m'.state = Halt) :
    ∃ fuel, ttmRun fuel m = TTMResult.halted m' := by
  obtain ⟨k, hk⟩ := h
  refine ⟨1 + k, ?_⟩
  rw [hk 1]
  simp [ttmRun, hh]

/-! ### Which instruction the Normalized Measurement program selects -/

/-- In state Init every symbol selects the first instruction. -/
theorem findInit (sym : Char) :
    ttmFind measureProg Init sym = some ⟨Init, anySym, noWrite, Move.left, 1⟩ := by
  simp [ttmFind, measureProg, Matches, anySym, Init]

/-- In state 1 a blank selects the write-m instruction. -/
theorem find1 :
    ttmFind measureProg 1 blank = some ⟨1, blank, 'm', Move.left, 2⟩ := by decide

/-- In state 2 a blank selects the write-n instruction. -/
theorem find2 :
    ttmFind measureProg 2 blank = some ⟨2, blank, 'n', Move.left, 3⟩ := by decide

/-- In state 3 a blank selects the write-0 instruction. -/
theorem find3 :
    ttmFind measureProg 3 blank = some ⟨3, blank, zero, Move.right, 4⟩ := by decide

/-- In state 4 the marker m is found. -/
theorem find4m :
    ttmFind measureProg 4 'm' = some ⟨4, 'm', noWrite, Move.right, 5⟩ := by decide

/-- In state 4 any other symbol keeps looking rightwards. -/
theorem find4other {sym : Char} (h : sym ≠ 'm') :
    ttmFind measureProg 4 sym = some ⟨4, anySym, noWrite, Move.right, 4⟩ := by
  simp [ttmFind, measureProg, Matches, anySym, Init, Halt, Ne.symm h]

/-- In state 5 a one is counted. -/
theorem find5one :
    ttmFind measureProg 5 one = some ⟨5, one, erased, Move.left, 6⟩ := by decide

/-- In state 5 a blank halts the machine. -/
theorem find5blank :
    ttmFind measureProg 5 blank = some ⟨5, blank, noWrite, Move.none, Halt⟩ := by
  decide

/-- In state 5 any other symbol is erased and skipped. -/
theorem find5other {sym : Char} (h1 : sym ≠ '1') (h2 : sym ≠ ' ') :
    ttmFind measureProg 5 sym = some ⟨5, anySym, erased, Move.right, 5⟩ := by
  simp [ttmFind, measureProg, Matches, anySym, one, blank, Init, Halt, Ne.symm h1, Ne.symm h2]

/-- In state 6 the marker n is found. -/
theorem find6n :
    ttmFind measureProg 6 'n' = some ⟨6, 'n', noWrite, Move.left, 7⟩ := by decide

/-- In state 6 any other symbol keeps looking leftwards. -/
theorem find6other {sym : Char} (h : sym ≠ 'n') :
    ttmFind measureProg 6 sym = some ⟨6, anySym, noWrite, Move.left, 6⟩ := by
  simp [ttmFind, measureProg, Matches, anySym, Init, Halt, Ne.symm h]

/-- In state 7 a one becomes a zero with a carry. -/
theorem find7one :
    ttmFind measureProg 7 one = some ⟨7, one, zero, Move.left, 7⟩ := by decide

/-- In state 7 any other symbol receives the final one of the increment. -/
theorem find7other {sym : Char} (h : sym ≠ '1') :
    ttmFind measureProg 7 sym = some ⟨7, anySym, one, Move.right, 4⟩ := by
  simp [ttmFind, measureProg, Matches, anySym, one, Init, Halt, Ne.symm h]

/-! ### Helper lemmas on the tape primitives -/

/-- dropLast distributes over an append with a nonempty right part. -/
theorem dropLastT_append (X : List Char) : ∀ (Y : List Char), Y ≠ [] →
    dropLastT (X ++ Y) = X ++ dropLastT Y := by
  induction X with
  | nil => intro Y _; rfl
  | cons x xs ih =>
      intro Y hY
      obtain ⟨y, ys, hys⟩ := List.exists_cons_of_ne_nil
        (show xs ++ Y ≠ [] by simp [hY])
      simp only [List.cons_append, hys, dropLastT]
      rw [← hys, ih Y hY]

/-- last looks only at a nonempty right part of an append. -/
theorem lastT_append (X : List Char) : ∀ (Y : List Char), Y ≠ [] →
    lastT (X ++ Y) = lastT Y := by
  induction X with
  | nil => intro Y _; rfl
  | cons x xs ih =>
      intro Y hY
      obtain ⟨y, ys, hys⟩ := List.exists_cons_of_ne_nil
        (show xs ++ Y ≠ [] by simp [hY])
      simp only [List.cons_append, hys, lastT]
      rw [← hys, ih Y hY]

/-- Dropping the appended last element. -/
theorem dropLastT_concat (l : List Char) (a : Char) : dropLastT (l ++ [a]) = l := by
  rw [dropLastT_append l [a] (by simp)]; simp [dropLastT]

/-- The appended last element is the last element. -/
theorem lastT_concat (l : List Char) (a : Char) : lastT (l ++ [a]) = a := by
  rw [lastT_append l [a] (by simp)]; rfl

/-- A nonempty tape is its dropLast part followed by its last symbol. -/
theorem dropLastT_concat_lastT : ∀ (l : List Char), l ≠ [] →
    dropLastT l ++ [lastT l] = l
  | [], h => absurd rfl h
  | [a], _ => rfl
  | a :: b :: l, _ => by
      have ih := dropLastT_concat_lastT (b :: l) (by simp)
      simp only [dropLastT, lastT, List.cons_append, ih]

/-- Members survive dropLast. -/
theorem mem_dropLastT : ∀ (l : List Char) (c : Char), c ∈ dropLastT l → c ∈ l
  | [], _, h => by simp [dropLastT] at h
  | [a], _, h => by simp [dropLastT] at h
  | a :: b :: l, c, h => by
      simp only [dropLastT, List.mem_cons] at h
      rcases h with h | h
      · simp [h]
      · have := mem_dropLastT (b :: l) c h
        simp [List.mem_cons] at this ⊢
        tauto

/-- The last symbol of a nonempty tape is on the tape. -/
theorem lastT_mem : ∀ (l : List Char), l ≠ [] → lastT l ∈ l
  | [], h => absurd rfl h
  | [a], _ => by simp [lastT]
  | a :: b :: l, _ => by
      have := lastT_mem (b :: l) (by simp)
      simp only [lastT, List.mem_cons] at this ⊢
      tauto

/-! ### The phases of the Normalized Measurement program -/

/-- In state 6 the head scans left over non-n symbols until the marker n. -/
theorem scan_left_6 (Z : List Char) : ∀ (X T : List Char),
    (∀ c ∈ Z, c ≠ 'n') → headT T ≠ 'n' →
    Reaches ⟨measureProg, X ++ 'n' :: Z, T, 6⟩
      ⟨measureProg, X, 'n' :: (Z ++ T), 6⟩ := by
  induction Z using List.reverseRecOn with
  | nil =>
      intro X T _ hT
      refine reaches_step_to (by simp [Halt]) (find6other hT) ?_
      simp [ttmExecute, setT, noWrite, prependT, dropLastT_concat, lastT_concat]
  | append_singleton Zs a ih =>
      intro X T hZ hT
      have step1 : Reaches ⟨measureProg, X ++ 'n' :: (Zs ++ [a]), T, 6⟩
          ⟨measureProg, X ++ 'n' :: Zs, a :: T, 6⟩ := by
        refine reaches_step_to (by simp [Halt]) (find6other hT) ?_
        have e : X ++ 'n' :: (Zs ++ [a]) = (X ++ 'n' :: Zs) ++ [a] := by simp
        have hdl : dropLastT (X ++ 'n' :: (Zs ++ [a])) = X ++ 'n' :: Zs := by
          rw [e, dropLastT_concat]
        have hla : lastT (X ++ 'n' :: (Zs ++ [a])) = a := by
          rw [e, lastT_concat]
        simp [ttmExecute, setT, noWrite, prependT, hdl, hla]
      refine reaches_trans step1 ?_
      have step2 := ih X (a :: T) (fun c hc => hZ c (by simp [hc]))
        (by simpa [headT] using hZ a (by simp))
      simpa using step2

/-- In state 4 the head scans right over non-m symbols, passes the marker m
and enters state 5. -/
theorem scan_right_4 (Z : List Char) : ∀ (X T : List Char),
    (∀ c ∈ Z, c ≠ 'm') →
    Reaches ⟨measureProg, X, Z ++ 'm' :: T, 4⟩
      ⟨measureProg, (X ++ Z) ++ ['m'], T, 5⟩ := by
  induction Z with
  | nil =>
      intro X T _
      refine reaches_step_to (by simp [Halt]) find4m ?_
      simp [ttmExecute, setT, noWrite, appendT, headT, dropFirstT]
  | cons z Zs ih =>
      intro X T hZ
      have hzm : z ≠ 'm' := hZ z (by simp)
      have step1 : Reaches ⟨measureProg, X, (z :: Zs) ++ 'm' :: T, 4⟩
          ⟨measureProg, X ++ [z], Zs ++ 'm' :: T, 4⟩ := by
        refine reaches_step_to (by simp [Halt]) (find4other hzm) ?_
        simp [ttmExecute, setT, noWrite, anySym, appendT, headT, dropFirstT]
      refine reaches_trans step1 ?_
      have step2 := ih (X ++ [z]) T (fun c hc => hZ c (by simp [hc]))
      simpa using step2

/-- In state 5 the head skips right over a block of already-erased cells. -/
theorem scan_right_5 (k : Nat) : ∀ (X T : List Char),
    Reaches ⟨measureProg, X, List.replicate k '_' ++ T, 5⟩
      ⟨measureProg, X ++ List.replicate k '_', T, 5⟩ := by
  induction k with
  | zero =>
      intro X T
      simpa using reaches_refl ⟨measureProg, X, T, 5⟩
  | succ n ih =>
      intro X T
      have step1 : Reaches ⟨measureProg, X, List.replicate (n + 1) '_' ++ T, 5⟩
          ⟨measureProg, X ++ ['_'], List.replicate n '_' ++ T, 5⟩ := by
        rw [List.replicate_succ]
        refine reaches_step_to (by simp [Halt])
          (@find5other '_' (by decide) (by decide)) ?_
        simp [List.replicate_succ, ttmExecute, setT, noWrite, erased, anySym,
          appendT, headT, dropFirstT, prependT]
      refine reaches_trans step1 ?_
      have step2 := ih (X ++ ['_']) T
      simpa [List.replicate_succ] using step2

/-- In state 7 the binary-increment carry turns a block of trailing ones
into zeros, moving left. -/
theorem seven_ones (k : Nat) : ∀ (A T : List Char),
    Reaches ⟨measureProg, dropLastT (A ++ List.replicate k '1'),
        lastT (A ++ List.replicate k '1') :: T, 7⟩
      ⟨measureProg, dropLastT A, lastT A :: (List.replicate k '0' ++ T), 7⟩ := by
  induction k with
  | zero =>
      intro A T
      simpa using reaches_refl ⟨measureProg, dropLastT A, lastT A :: T, 7⟩
  | succ n ih =>
      intro A T
      have e : A ++ List.replicate (n + 1) '1' =
          (A ++ List.replicate n '1') ++ ['1'] := by
        simp [List.replicate_succ']
      have step1 : Reaches ⟨measureProg, dropLastT (A ++ List.replicate (n + 1) '1'),
          lastT (A ++ List.replicate (n + 1) '1') :: T, 7⟩
          ⟨measureProg, dropLastT (A ++ List.replicate n '1'),
            lastT (A ++ List.replicate n '1') :: '0' :: T, 7⟩ := by
        rw [e, dropLastT_concat, lastT_concat]
        refine reaches_step_to (by simp [Halt]) find7one ?_
        simp [ttmExecute, setT, zero, noWrite, one, prependT, dropFirstT]
      refine reaches_trans step1 ?_
      have step2 := ih A ('0' :: T)
      simpa [List.replicate_succ'] using step2

/-! ### Binary counting -/

/-- The least-significant-first bits of a successor are the binary increment
of the bits. -/
theorem bitsL_succ : ∀ n : Nat, bitsL (n + 1) = incB (bitsL n) := by
  intro n
  induction n using Nat.strong_induction_on with
  | _ n ih =>
    match n with
    | 0 =>
        rw [show (0 : Nat) + 1 = 0 + 1 from rfl, bitsL, bitsL]
        simp [incB, bitsL]
    | m + 1 =>
        rcases Nat.even_or_odd (m + 1) with he | ho
        · obtain ⟨t, ht⟩ := he
          have h2 : (m + 1) % 2 = 0 := by omega
          have h3 : (m + 1 + 1) % 2 = 1 := by omega
          have h4 : (m + 1 + 1) / 2 = (m + 1) / 2 := by omega
          rw [bitsL, bitsL, incB]
          simp only [h2, h3, h4]
          norm_num [zero, one]
          rw [if_neg (by decide : ¬ ('0' : Char) = '1')]
        · obtain ⟨t, ht⟩ := ho
          have h2 : (m + 1) % 2 = 1 := by omega
          have h3 : (m + 1 + 1) % 2 = 0 := by omega
          have h4 : (m + 1 + 1) / 2 = (m + 1) / 2 + 1 := by omega
          have hlt : (m + 1) / 2 < m + 1 := Nat.div_lt_self (by omega) (by decide)
          rw [bitsL, bitsL, incB]
          simp only [h2, h3, h4]
          norm_num [one]
          exact ih _ hlt

/-- The bits of a positive number are nonempty. -/
theorem bitsL_ne_nil (n : Nat) (h : 0 < n) : bitsL n ≠ [] := by
  obtain ⟨m, rfl⟩ : ∃ m, n = m + 1 := ⟨n - 1, by omega⟩
  rw [bitsL]
  simp

/-- Every bit is a zero or a one character. -/
theorem bitsL_mem : ∀ (n : Nat) (c : Char), c ∈ bitsL n → c = '0' ∨ c = '1' := by
  intro n
  induction n using Nat.strong_induction_on with
  | _ n ih =>
    match n with
    | 0 => intro c hc; rw [bitsL] at hc; simp at hc
    | m + 1 =>
        intro c hc
        rw [bitsL] at hc
        rcases List.mem_cons.mp hc with h | h
        · subst h
          split <;> simp [one, zero]
        · exact ih ((m + 1) / 2) (Nat.div_lt_self (by omega) (by decide)) c h

/-- Any list of zero and one characters splits into its leading ones and a
rest that is empty or starts with a zero. -/
theorem lead_ones : ∀ l : List Char, (∀ c ∈ l, c = '0' ∨ c = '1') →
    ∃ k rest, l = List.replicate k '1' ++ rest ∧
      (rest = [] ∨ ∃ t, rest = '0' :: t) := by
  intro l
  induction l with
  | nil => exact fun _ => ⟨0, [], by simp, Or.inl rfl⟩
  | cons c cs ih =>
      intro h
      rcases h c (by simp) with h0 | h1
      · exact ⟨0, c :: cs, by simp, Or.inr ⟨cs, by rw [h0]⟩⟩
      · obtain ⟨k, rest, hrest, hr⟩ := ih (fun x hx => h x (by simp [hx]))
        exact ⟨k + 1, rest, by simp [List.replicate_succ, h1, hrest], hr⟩

/-- Incrementing an all-ones binary number. -/
theorem incB_ones (k : Nat) :
    incB (List.replicate k '1') = List.replicate k '0' ++ ['1'] := by
  induction k with
  | zero => rfl
  | succ n ih => simp [List.replicate_succ, incB, one, zero, ih]

/-- Incrementing a binary number with trailing ones before a zero. -/
theorem incB_ones_zero (k : Nat) (t : List Char) :
    incB (List.replicate k '1' ++ '0' :: t) =
      List.replicate k '0' ++ '1' :: t := by
  induction k with
  | zero => simp [incB, one, zero]
  | succ n ih => simp [List.replicate_succ, incB, one, zero, ih]

/-- The digit string of a count is never empty. -/
theorem digits_ne_nil (c : Nat) : digits c ≠ [] := by
  unfold digits
  split
  · simp
  · next h =>
      have := bitsL_ne_nil c (Nat.pos_of_ne_zero h)
      simpa using this

/-- The increment phase: from state 7 just left of the marker n, the digit
string of c is rewritten to that of c + 1 and state 4 is entered; the cells
right of the head hold the trailing zeros of the new digit string. -/
theorem incr_digits (c : Nat) (T : List Char) :
    ∃ L z, digits (c + 1) = L ++ List.replicate z '0' ∧
      Reaches ⟨measureProg, dropLastT (digits c), lastT (digits c) :: T, 7⟩
        ⟨measureProg, L, List.replicate z '0' ++ T, 4⟩ := by
  rcases Nat.eq_zero_or_pos c with rfl | hpos
  · refine ⟨['1'], 0, ?_, ?_⟩
    · unfold digits
      rw [if_neg (by omega)]
      rw [show (0 : Nat) + 1 = 0 + 1 from rfl, bitsL, bitsL]
      simp [one]
    · have hd : digits 0 = ['0'] := by simp [digits, zero]
      rw [hd]
      simp only [show dropLastT ['0'] = [] from rfl, show lastT ['0'] = '0' from rfl]
      refine reaches_step_to (by simp [Halt]) (@find7other '0' (by decide)) ?_
      simp [ttmExecute, setT, one, noWrite, anySym, appendT, headT, dropFirstT,
        prependT]
  · have hc : digits c = (bitsL c).reverse := by
      unfold digits
      rw [if_neg (by omega)]
    obtain ⟨k, rest, hdec, hr⟩ := lead_ones (bitsL c) (bitsL_mem c)
    rcases hr with rfl | ⟨t, rfl⟩
    · have hk : 0 < k := by
        rcases Nat.eq_zero_or_pos k with rfl | h
        · exact absurd (by simpa using hdec) (bitsL_ne_nil c hpos)
        · exact h
      have hdig : digits c = List.replicate k '1' := by
        rw [hc, hdec]
        simp [List.reverse_replicate]
      have hsucc : digits (c + 1) = ['1'] ++ List.replicate k '0' := by
        have hb : bitsL (c + 1) = List.replicate k '0' ++ ['1'] := by
          rw [bitsL_succ, hdec]
          simp [incB_ones]
        unfold digits
        rw [if_neg (by omega), hb]
        simp [List.reverse_replicate]
      refine ⟨['1'], k, hsucc, ?_⟩
      rw [hdig]
      have h7 := seven_ones k [] T
      simp only [List.nil_append] at h7
      refine reaches_trans h7 ?_
      refine reaches_step_to (by simp [Halt]) (@find7other (lastT []) (by decide)) ?_
      simp [ttmExecute, setT, one, noWrite, anySym, appendT, headT, dropFirstT,
        prependT, dropLastT, lastT]
    · have hdig : digits c = (t.reverse ++ ['0']) ++ List.replicate k '1' := by
        rw [hc, hdec]
        simp [List.reverse_replicate]
      have hsucc : digits (c + 1) = (t.reverse ++ ['1']) ++ List.replicate k '0' := by
        have hb : bitsL (c + 1) = List.replicate k '0' ++ '1' :: t := by
          rw [bitsL_succ, hdec, incB_ones_zero]
        unfold digits
        rw [if_neg (by omega), hb]
        simp [List.reverse_replicate]
      refine ⟨t.reverse ++ ['1'], k, hsucc, ?_⟩
      rw [hdig]
      have h7 := seven_ones k (t.reverse ++ ['0']) T
      refine reaches_trans h7 ?_
      rw [dropLastT_concat, lastT_concat]
      refine reaches_step_to (by simp [Halt]) (@find7other '0' (by decide)) ?_
      simp [ttmExecute, setT, one, noWrite, anySym, appendT, headT, dropFirstT,
        prependT]

/-- The main loop of the Normalized Measurement program: with the counter at
c, the markers n and m, and j erased cells just behind the head, the machine
counts the ones of the blank-free part of the remaining input, erases that
part, and halts at the first blank (or at the end of the tape). -/
theorem measure_loop (pre : List Char) : ∀ (c j : Nat) (post : List Char),
    (∀ ch ∈ pre, ch ≠ ' ') → (post = [] ∨ ∃ t, post = ' ' :: t) →
    Reaches
      ⟨measureProg, digits c ++ 'n' :: 'm' :: List.replicate j '_',
        pre ++ post, 5⟩
      ⟨measureProg, digits (c + pre.count '1') ++ 'n' :: 'm' ::
        List.replicate (j + pre.length) '_', post, Halt⟩ := by
  induction pre with
  | nil =>
      intro c j post _ hpost
      simp only [List.nil_append, List.count_nil, List.length_nil, Nat.add_zero]
      have hhead : headT post = ' ' := by
        rcases hpost with rfl | ⟨t, rfl⟩ <;> simp [headT, blank]
      have hfind : ttmFind measureProg 5 (headT post) =
          some ⟨5, blank, noWrite, Move.none, Halt⟩ := by
        rw [hhead]; exact find5blank
      refine reaches_step_to (by simp [Halt]) hfind ?_
      simp [ttmExecute, setT, noWrite]
  | cons x pre' ih =>
      intro c j post hpre hpost
      have hx : x ≠ ' ' := hpre x (by simp)
      have hpre' : ∀ ch ∈ pre', ch ≠ ' ' := fun ch hch => hpre ch (by simp [hch])
      simp only [List.cons_append]
      by_cases hx1 : x = '1'
      · subst hx1
        have hYne : ('m' :: List.replicate j '_') ≠ [] := by simp
        have hmemY : ∀ ch ∈ 'm' :: List.replicate j '_', ch = 'm' ∨ ch = '_' := by
          intro ch hch
          rcases List.mem_cons.mp hch with rfl | hmem
          · exact Or.inl rfl
          · exact Or.inr (List.eq_of_mem_replicate hmem)
        have step1 : Reaches
            ⟨measureProg, digits c ++ 'n' :: 'm' :: List.replicate j '_',
              '1' :: (pre' ++ post), 5⟩
            ⟨measureProg,
              digits c ++ 'n' :: dropLastT ('m' :: List.replicate j '_'),
              lastT ('m' :: List.replicate j '_') :: '_' :: (pre' ++ post), 6⟩ := by
          refine reaches_step_to (by simp [Halt]) find5one ?_
          have e : digits c ++ 'n' :: 'm' :: List.replicate j '_' =
              (digits c ++ ['n']) ++ ('m' :: List.replicate j '_') := by simp
          have hdl : dropLastT (digits c ++ 'n' :: 'm' :: List.replicate j '_') =
              digits c ++ 'n' :: dropLastT ('m' :: List.replicate j '_') := by
            rw [e, dropLastT_append _ _ hYne]; simp
          have hlt : lastT (digits c ++ 'n' :: 'm' :: List.replicate j '_') =
              lastT ('m' :: List.replicate j '_') := by
            rw [e, lastT_append _ _ hYne]
          simp [ttmExecute, setT, erased, noWrite, prependT, dropFirstT, hdl, hlt]
        have step2 : Reaches
            ⟨measureProg,
              digits c ++ 'n' :: dropLastT ('m' :: List.replicate j '_'),
              lastT ('m' :: List.replicate j '_') :: '_' :: (pre' ++ post), 6⟩
            ⟨measureProg, digits c,
              'n' :: 'm' :: (List.replicate (j + 1) '_' ++ (pre' ++ post)), 6⟩ := by
          have c1 : ∀ ch ∈ dropLastT ('m' :: List.replicate j '_'), ch ≠ 'n' := by
            intro ch hch
            rcases hmemY ch (mem_dropLastT _ ch hch) with rfl | rfl <;> decide
          have c2 : headT (lastT ('m' :: List.replicate j '_') :: '_' ::
              (pre' ++ post)) ≠ 'n' := by
            have := hmemY _ (lastT_mem _ hYne)
            rcases this with h | h <;> simp [headT, h]
          have h := scan_left_6 (dropLastT ('m' :: List.replicate j '_'))
            (digits c)
            (lastT ('m' :: List.replicate j '_') :: '_' :: (pre' ++ post)) c1 c2
          have e : dropLastT ('m' :: List.replicate j '_') ++
              (lastT ('m' :: List.replicate j '_') :: '_' :: (pre' ++ post)) =
              'm' :: (List.replicate (j + 1) '_' ++ (pre' ++ post)) := by
            rw [show dropLastT ('m' :: List.replicate j '_') ++
                (lastT ('m' :: List.replicate j '_') :: '_' :: (pre' ++ post)) =
                (dropLastT ('m' :: List.replicate j '_') ++
                  [lastT ('m' :: List.replicate j '_')]) ++ ('_' :: (pre' ++ post))
              by simp, dropLastT_concat_lastT _ hYne]
            simp [List.replicate_succ']
          rw [e] at h
          exact h
        have step3 : Reaches
            ⟨measureProg, digits c,
              'n' :: 'm' :: (List.replicate (j + 1) '_' ++ (pre' ++ post)), 6⟩
            ⟨measureProg, dropLastT (digits c), lastT (digits c) ::
              'n' :: 'm' :: (List.replicate (j + 1) '_' ++ (pre' ++ post)), 7⟩ := by
          refine reaches_step_to (by simp [Halt]) find6n ?_
          simp [ttmExecute, setT, noWrite, prependT]
        obtain ⟨L, z, hz, hreach⟩ := incr_digits c
          ('n' :: 'm' :: (List.replicate (j + 1) '_' ++ (pre' ++ post)))
        have step5 : Reaches
            ⟨measureProg, L, List.replicate z '0' ++
              ('n' :: 'm' :: (List.replicate (j + 1) '_' ++ (pre' ++ post))), 4⟩
            ⟨measureProg, (L ++ (List.replicate z '0' ++ ['n'])) ++ ['m'],
              List.replicate (j + 1) '_' ++ (pre' ++ post), 5⟩ := by
          have c1 : ∀ ch ∈ List.replicate z '0' ++ ['n'], ch ≠ 'm' := by
            intro ch hch
            rcases List.mem_append.mp hch with h | h
            · rw [List.eq_of_mem_replicate h]; decide
            · rw [List.mem_singleton.mp h]; decide
          have h := scan_right_4 (List.replicate z '0' ++ ['n']) L
            (List.replicate (j + 1) '_' ++ (pre' ++ post)) c1
          have e : (List.replicate z '0' ++ ['n']) ++ 'm' ::
              (List.replicate (j + 1) '_' ++ (pre' ++ post)) =
              List.replicate z '0' ++
              ('n' :: 'm' :: (List.replicate (j + 1) '_' ++ (pre' ++ post))) := by
            simp
          rw [e] at h
          exact h
        have step6 : Reaches
            ⟨measureProg, (L ++ (List.replicate z '0' ++ ['n'])) ++ ['m'],
              List.replicate (j + 1) '_' ++ (pre' ++ post), 5⟩
            ⟨measureProg, digits (c + 1) ++ 'n' :: 'm' ::
              List.replicate (j + 1) '_', pre' ++ post, 5⟩ := by
          have h := scan_right_5 (j + 1)
            ((L ++ (List.replicate z '0' ++ ['n'])) ++ ['m']) (pre' ++ post)
          have e : ((L ++ (List.replicate z '0' ++ ['n'])) ++ ['m']) ++
              List.replicate (j + 1) '_' =
              digits (c + 1) ++ 'n' :: 'm' :: List.replicate (j + 1) '_' := by
            rw [hz]; simp
          rw [e] at h
          exact h
        have step7 := ih (c + 1) (j + 1) post hpre' hpost
        have efin1 : c + ('1' :: pre').count '1' = c + 1 + pre'.count '1' := by
          rw [List.count_cons_self]; omega
        have efin2 : j + ('1' :: pre').length = j + 1 + pre'.length := by
          simp [List.length_cons]; omega
        rw [efin1, efin2]
        exact reaches_trans step1 (reaches_trans step2 (reaches_trans step3
          (reaches_trans hreach (reaches_trans step5
            (reaches_trans step6 step7)))))
      · have step1 : Reaches
            ⟨measureProg, digits c ++ 'n' :: 'm' :: List.replicate j '_',
              x :: (pre' ++ post), 5⟩
            ⟨measureProg, digits c ++ 'n' :: 'm' :: List.replicate (j + 1) '_',
              pre' ++ post, 5⟩ := by
          refine reaches_step_to (by simp [Halt]) (@find5other x hx1 hx) ?_
          simp [ttmExecute, setT, erased, noWrite, anySym, appendT, headT,
            dropFirstT, prependT, List.replicate_succ']
        have step2 := ih c (j + 1) post hpre' hpost
        have efin1 : c + (x :: pre').count '1' = c + pre'.count '1' := by
          rw [List.count_cons_of_ne (Ne.symm hx1)]
        have efin2 : j + (x :: pre').length = j + 1 + pre'.length := by
          simp [List.length_cons]; omega
        rw [efin1, efin2]
        exact reaches_trans step1 step2

/-- The start-up phase: from the initial configuration the machine writes
0nm to the left of the input and returns to the start of the input in
state 5. -/
theorem measure_start (input : List Char) :
    Reaches (ttmMeasure input) ⟨measureProg, ['0', 'n', 'm'], input, 5⟩ := by
  have step1 : Reaches (ttmMeasure input) ⟨measureProg, [], ' ' :: input, 1⟩ := by
    refine reaches_step_to (by simp [ttmMeasure, Init, Halt])
      (findInit (headT input)) ?_
    simp [ttmExecute, setT, noWrite, prependT, dropLastT, lastT, blank, ttmMeasure]
  have step2 : Reaches ⟨measureProg, [], ' ' :: input, 1⟩
      ⟨measureProg, [], ' ' :: 'm' :: input, 2⟩ := by
    refine reaches_step_to (by simp [Halt]) find1 ?_
    simp [ttmExecute, setT, noWrite, blank, prependT, dropFirstT, dropLastT, lastT]
  have step3 : Reaches ⟨measureProg, [], ' ' :: 'm' :: input, 2⟩
      ⟨measureProg, [], ' ' :: 'n' :: 'm' :: input, 3⟩ := by
    refine reaches_step_to (by simp [Halt]) find2 ?_
    simp [ttmExecute, setT, noWrite, blank, prependT, dropFirstT, dropLastT, lastT]
  have step4 : Reaches ⟨measureProg, [], ' ' :: 'n' :: 'm' :: input, 3⟩
      ⟨measureProg, ['0'], 'n' :: 'm' :: input, 4⟩ := by
    refine reaches_step_to (by simp [Halt]) find3 ?_
    simp [ttmExecute, setT, zero, noWrite, blank, appendT, headT, dropFirstT,
      prependT]
  have step5 : Reaches ⟨measureProg, ['0'], 'n' :: 'm' :: input, 4⟩
      ⟨measureProg, ['0', 'n', 'm'], input, 5⟩ := by
    have h := scan_right_4 ['n'] ['0'] input (by decide)
    simpa using h
  exact reaches_trans step1 (reaches_trans step2 (reaches_trans step3
    (reaches_trans step4 step5)))

/-- Claim C5: for every input tape, the Normalized Measurement program halts
having erased the input up to the first blank (each erased cell marked _),
counted the one symbols among it, and written that count in binary followed
by the marker nm at the front of the tape; the input from the first blank
onwards is untouched. -/
theorem ttm_measure_correct (input : List Char) :
    ∃ fuel, ttmRun fuel (ttmMeasure input) =
      TTMResult.halted ⟨measureProg,
        digits ((input.takeWhile (· ≠ blank)).count one) ++ 'n' :: 'm' ::
          List.replicate (input.takeWhile (· ≠ blank)).length erased,
        input.dropWhile (· ≠ blank), Halt⟩ := by
  have hpre : ∀ ch ∈ input.takeWhile (· ≠ blank), ch ≠ ' ' := by
    intro ch hch
    have := List.mem_takeWhile_imp hch
    simpa [blank] using this
  have hpost : input.dropWhile (· ≠ blank) = [] ∨
      ∃ t, input.dropWhile (· ≠ blank) = ' ' :: t := by
    cases hd : input.dropWhile (· ≠ blank) with
    | nil => exact Or.inl rfl
    | cons y t =>
        have h := List.head?_dropWhile_not (fun c => decide (c ≠ blank)) input
        rw [hd] at h
        simp [blank] at h
        subst h
        exact Or.inr ⟨t, rfl⟩
  have hloop := measure_loop (input.takeWhile (· ≠ blank)) 0 0
    (input.dropWhile (· ≠ blank)) hpre hpost
  rw [List.takeWhile_append_dropWhile] at hloop
  have hstart := measure_start input
  have e0 : (digits 0 ++ 'n' :: 'm' :: List.replicate 0 '_' : List Char) =
      ['0', 'n', 'm'] := by
    simp [digits, zero]
  rw [e0] at hloop
  have h := reaches_trans hstart hloop
  have hfin := reaches_halted h rfl
  simpa [Nat.zero_add, erased, one, blank] using hfin

/-! ### The constexpr machine: constructor, errors, determinism -/

/-- Claim C9: the CTM constructor fails exactly when the program pointer is
null or the program string's length is not a multiple of five; every other
string is accepted unchanged, with no validation of its states, symbols or
move characters. -/
theorem ctm_ctor_spec (po : Option (List Char)) :
    ((∃ e, ctmNew po = Except.error e) ↔
      po = Option.none ∨ ∃ p, po = some p ∧ ctmStrlen p % 5 ≠ 0) ∧
    (∀ p, po = some p → ctmStrlen p % 5 = 0 → ctmNew po = Except.ok p) := by
  constructor
  · constructor
    · rintro ⟨e, he⟩
      cases po with
      | none => exact Or.inl rfl
      | some p =>
          refine Or.inr ⟨p, rfl, ?_⟩
          intro hmod
          simp [ctmNew, hmod] at he
    · intro h
      rcases h with rfl | ⟨p, rfl, hp⟩
      · exact ⟨"No program specified", rfl⟩
      · exact ⟨"Invalid program", by simp [ctmNew, hp]⟩
  · intro p hp hmod
    subst hp
    simp [ctmNew, hmod]

/-- Claim C8: the execution loop is a function of the program and the
starting configuration alone: any two runs given enough fuel return the
same result, whatever the two fuel amounts. -/
theorem ctm_run_deterministic (prog : List Char) : ∀ (f1 : Nat) (c : CTMCfg)
    (f2 : Nat) (r1 r2 : Except String (List Char)),
    ctmRun prog f1 c = some r1 → ctmRun prog f2 c = some r2 → r1 = r2 := by
  intro f1
  induction f1 with
  | zero => intro c f2 r1 r2 h1; cases h1
  | succ n ih =>
      intro c f2 r1 r2 h1 h2
      rcases f2 with _ | m
      · cases h2
      · rw [ctmRun] at h1 h2
        rcases hs : ctmStep prog c with t | e | c' <;> rw [hs] at h1 h2
        · cases h1; cases h2; rfl
        · cases h1; cases h2; rfl
        · exact ih c' m r1 r2 h1 h2

/-- A step can only throw the two messages of CTM::run. -/
theorem ctmStep_err (prog : List Char) (c : CTMCfg) (e : String)
    (h : ctmStep prog c = CTMRes.err e) :
    e = "Invalid program" ∨ e = "Out of memory" := by
  obtain ⟨tape, head, st⟩ := c
  rw [ctmStep] at h
  rcases hfind : ctmFind prog st (tape.getD head blank) with _ | ⟨o, mv, nx⟩ <;>
    rw [hfind] at h
  · cases h; exact Or.inl rfl
  · simp only at h
    split_ifs at h <;> first | (cases h; exact Or.inr rfl) | cases h

/-- Claim C2 (amended): within any fuel bound, a run of the constexpr
machine either is still running (the loop need not terminate), or halts
with a tape, or fails with "Invalid program" (no matching instruction) or
with "Out of memory" (the head ran off the 128-cell tape); no other outcome
exists. -/
theorem ctm_run_outcomes (fuel : Nat) : ∀ (prog : List Char) (c : CTMCfg),
    ctmRun prog fuel c = Option.none ∨
    (∃ t, ctmRun prog fuel c = some (Except.ok t)) ∨
    ctmRun prog fuel c = some (Except.error "Invalid program") ∨
    ctmRun prog fuel c = some (Except.error "Out of memory") := by
  induction fuel with
  | zero => intro prog c; exact Or.inl rfl
  | succ n ih =>
      intro prog c
      rw [ctmRun]
      rcases hs : ctmStep prog c with t | e | c'
      · exact Or.inr (Or.inl ⟨t, rfl⟩)
      · rcases ctmStep_err prog c e hs with rfl | rfl
        · exact Or.inr (Or.inr (Or.inl rfl))
        · exact Or.inr (Or.inr (Or.inr rfl))
      · exact ih prog c'

/-- Claim C3 (amended): in the template interpreter reading past either end
of the tape yields the blank symbol, so a move never fails there; in the
constexpr interpreter the tape is 128 fixed cells and does run out: a left
move at cell 0, or a right move at cell 127 or beyond, fails with
"Out of memory". -/
theorem tape_ends_spec :
    (headT [] = blank ∧ lastT [] = blank) ∧
    (∀ prog tape st o nx,
      ctmFind prog st (tape.getD 0 blank) = some (o, 'L', nx) →
      ctmStep prog ⟨tape, 0, st⟩ = CTMRes.err "Out of memory") ∧
    (∀ prog tape st o nx (head : Nat), 127 ≤ head →
      ctmFind prog st (tape.getD head blank) = some (o, 'R', nx) →
      ctmStep prog ⟨tape, head, st⟩ = CTMRes.err "Out of memory") := by
  refine ⟨⟨rfl, rfl⟩, ?_, ?_⟩
  · intro prog tape st o nx hfind
    rw [ctmStep, hfind]
    simp [TapeLength]
  · intro prog tape st o nx head hh hfind
    rw [ctmStep, hfind]
    simp [TapeLength, hh]

/-- Claim C4 (amended): when no instruction matches the current state and
symbol, the machine fails recoverably, but with the generic message
"Invalid program" — the very message the constructor uses for a bad program
length — which names neither the offending state nor the symbol. -/
theorem ctm_no_match_spec (prog : List Char) (c : CTMCfg)
    (h : ctmFind prog c.state (c.tape.getD c.head blank) = Option.none) :
    ctmStep prog c = CTMRes.err "Invalid program" ∧
    ctmNew (some ("huh?".toList)) = Except.error "Invalid program" := by
  obtain ⟨tape, head, st⟩ := c
  constructor
  · rw [ctmStep, show ctmFind prog st (tape.getD head blank) = Option.none from h]
  · decide

/-! ### The initial tape of CTM::run -/

/-- Reading the cell just written. -/
theorem getD_set_self (l : List Char) (n : Nat) (a d : Char) (h : n < l.length) :
    (l.set n a).getD n d = a := by
  simp [List.getD_eq_getElem?_getD, List.getElem?_set_self h]

/-- Reading another cell after a write. -/
theorem getD_set_ne (l : List Char) (n k : Nat) (a d : Char) (h : n ≠ k) :
    (l.set n a).getD k d = l.getD k d := by
  simp [List.getD_eq_getElem?_getD, List.getElem?_set_ne h]

/-- The copy loop preserves the tape length. -/
theorem ctmCopy_length (cs : List Char) : ∀ (tape : List Char) (i : Nat),
    (ctmCopy tape i cs).length = tape.length := by
  induction cs with
  | nil => intro tape i; rfl
  | cons c cs ih =>
      intro tape i
      rw [ctmCopy]
      split
      · rw [ih]; simp
      · rfl

/-- What each cell holds after the copy loop: the input character that lands
there, when one does and fits on the tape, and the old cell otherwise. -/
theorem ctmCopy_getD (cs : List Char) : ∀ (tape : List Char) (i k : Nat) (d : Char),
    tape.length = 128 →
    (ctmCopy tape i cs).getD k d =
      if 64 + i ≤ k ∧ k < 128 ∧ k - (64 + i) < cs.length then
        cs.getD (k - (64 + i)) d
      else tape.getD k d := by
  induction cs with
  | nil =>
      intro tape i k d _
      rw [ctmCopy, if_neg]
      rintro ⟨-, -, h3⟩
      simp at h3
  | cons c cs ih =>
      intro tape i k d hlen
      rw [ctmCopy]
      by_cases hi : 64 + i < 128
      · rw [if_pos (by simpa [TapeLength] using hi)]
        rw [ih _ (i + 1) _ _ (by simp [hlen])]
        by_cases hk : k = 64 + i
        · subst hk
          rw [if_neg (by omega)]
          rw [getD_set_self _ _ _ _ (by omega)]
          rw [if_pos ⟨Nat.le_refl _, hi, by simp⟩]
          simp
        · rw [getD_set_ne _ _ _ _ _ (fun he => hk he.symm)]
          rcases Nat.lt_or_ge k (64 + i) with hlt | hge
          · rw [if_neg (by omega), if_neg (by omega)]
          · have hgt : 64 + i + 1 ≤ k := by omega
            by_cases hk128 : k < 128
            · by_cases hrem : k - (64 + (i + 1)) < cs.length
              · rw [if_pos ⟨by omega, hk128, by omega⟩,
                  if_pos ⟨by omega, hk128, by simp; omega⟩]
                have e : k - (64 + i) = (k - (64 + (i + 1))) + 1 := by omega
                rw [e, List.getD_cons_succ]
              · rw [if_neg (by omega), if_neg (by simp; omega)]
            · rw [if_neg (by omega), if_neg (by omega)]
      · rw [if_neg (by simpa [TapeLength] using hi), if_neg (by omega)]

/-- Every successful run returns a tape of the length it started with. -/
theorem ctmRun_ok_length : ∀ (fuel : Nat) (prog : List Char) (c : CTMCfg)
    (t : List Char), ctmRun prog fuel c = some (Except.ok t) →
    t.length = c.tape.length := by
  intro fuel
  induction fuel with
  | zero => intro prog c t h; cases h
  | succ n ih =>
      intro prog c t h
      obtain ⟨tape, head, st⟩ := c
      rw [ctmRun] at h
      rcases hs : ctmStep prog ⟨tape, head, st⟩ with t' | e | c' <;> rw [hs] at h
      · cases h
        rw [ctmStep] at hs
        rcases hfind : ctmFind prog st (tape.getD head blank) with _ | ⟨o, mv, nx⟩ <;>
          rw [hfind] at hs
        · cases hs
        · simp only at hs
          split_ifs at hs <;> cases hs <;> simp [ctmWrite] <;> split <;> simp
      · cases h
      · have hl := ih prog c' t h
        rw [ctmStep] at hs
        rcases hfind : ctmFind prog st (tape.getD head blank) with _ | ⟨o, mv, nx⟩ <;>
          rw [hfind] at hs
        · cases hs
        · simp only at hs
          split_ifs at hs <;> cases hs <;>
            (rw [hl]; simp [ctmWrite]; split <;> simp)

/-- Claim C10: CTM::run starts from a 128-cell tape of blanks with the input
copied in from cell 64 (the middle) and the head at 64; input characters
that would land past cell 127 are silently dropped; and every successful
run returns a tape of exactly 128 cells. -/
theorem ctm_run_init_spec (input : List Char) :
    (ctmInitTape input).length = 128 ∧
    (∀ k, k < 64 → (ctmInitTape input).getD k blank = blank) ∧
    (∀ k, 64 ≤ k → k < 128 →
      (ctmInitTape input).getD k blank = input.getD (k - 64) blank) ∧
    (∀ prog fuel, ctmRunFull prog input fuel =
      ctmRun prog fuel ⟨ctmInitTape input, 64, '0'⟩) ∧
    (∀ prog fuel t, ctmRunFull prog input fuel = some (Except.ok t) →
      t.length = 128) := by
  have hlen : (ctmInitTape input).length = 128 := by
    rw [ctmInitTape, ctmCopy_length]
    simp [TapeLength]
  have hrep : ∀ (k : Nat) (d : Char),
      (List.replicate TapeLength blank).getD k d = if k < 128 then blank else d := by
    intro k d
    split
    · next h =>
        rw [List.getD_eq_getElem?_getD, List.getElem?_eq_getElem
          (by simpa [TapeLength] using h)]
        simp [List.getElem_replicate]
    · next h =>
        rw [List.getD_eq_default]
        simp [TapeLength]
        omega
  refine ⟨hlen, ?_, ?_, fun _ _ => rfl, ?_⟩
  · intro k hk
    rw [ctmInitTape, ctmCopy_getD _ _ _ _ _ (by simp [TapeLength])]
    rw [if_neg (by omega), hrep, if_pos (by omega)]
  · intro k h64 h128
    rw [ctmInitTape, ctmCopy_getD _ _ _ _ _ (by simp [TapeLength])]
    by_cases hin : k - 64 < input.length
    · rw [if_pos ⟨by omega, h128, by simpa using hin⟩]
    · rw [if_neg (by simp; omega), hrep, if_pos h128,
        List.getD_eq_default _ _ (by omega)]
  · intro prog fuel t h
    have := ctmRun_ok_length fuel prog ⟨ctmInitTape input, 64, '0'⟩ t h
    rw [this, hlen]

/-! ### The TTM step, characterised cell by cell -/

/-- head reads the cell under the head. -/
theorem headT_getD (l : List Char) : headT l = l.getD 0 blank := by
  cases l <;> rfl

/-- dropFirst shifts the read index. -/
theorem dropFirstT_getD (l : List Char) (k : Nat) (d : Char) :
    (dropFirstT l).getD k d = l.getD (k + 1) d := by
  cases l <;> rfl

/-- The tail shifts the read index. -/
theorem getD_tail (l : List Char) (k : Nat) (d : Char) :
    l.tail.getD k d = l.getD (k + 1) d := by
  cases l <;> rfl

/-- last reads position 0 of the reversed tape. -/
theorem lastT_getD (l : List Char) : lastT l = l.reverse.getD 0 blank := by
  induction l with
  | nil => rfl
  | cons a l ih =>
      cases l with
      | nil => rfl
      | cons b t =>
          rw [lastT, ih,
            show (a :: b :: t).reverse = (b :: t).reverse ++ [a] from by simp,
            List.getD_append _ _ _ _ (by simp)]

/-- dropLast removes position 0 of the reversed tape. -/
theorem reverse_dropLastT (l : List Char) :
    (dropLastT l).reverse = l.reverse.tail := by
  induction l with
  | nil => rfl
  | cons a l ih =>
      cases l with
      | nil => rfl
      | cons b t =>
          rw [dropLastT, List.reverse_cons, ih,
            show (a :: b :: t).reverse = (b :: t).reverse ++ [a] from by simp]
          obtain ⟨c, X, hX⟩ :=
            List.exists_cons_of_ne_nil (show (b :: t).reverse ≠ [] by simp)
          rw [hX]
          rfl

/-- What set leaves in each cell: the written symbol at the head unless it
is the no-write sentinel, the old content elsewhere. -/
theorem setT_getD (s : Char) (l : List Char) (k : Nat) :
    (setT s l).getD k blank =
      if k = 0 ∧ s ≠ noWrite then s else l.getD k blank := by
  unfold setT
  by_cases hs : s = noWrite
  · rw [if_pos hs, if_neg (by simp [hs])]
  · rw [if_neg hs]
    cases k with
    | zero => rw [if_pos ⟨rfl, hs⟩]; rfl
    | succ n =>
        rw [if_neg (by simp), show prependT s (dropFirstT l) = s :: dropFirstT l
          from rfl, List.getD_cons_succ, dropFirstT_getD]

/-- find returns exactly the first matching instruction of the program. -/
theorem ttmFind_first (p : List Instr) (st : MState) (sym : Char) (i : Instr) :
    ttmFind p st sym = some i ↔
      ∃ pre post, p = pre ++ i :: post ∧ Matches i st sym ∧
        ∀ i' ∈ pre, ¬ Matches i' st sym := by
  induction p with
  | nil =>
      constructor
      · intro h; simp [ttmFind] at h
      · rintro ⟨pre, post, h, -, -⟩
        simp at h
  | cons a p ih =>
      by_cases ha : Matches a st sym
      · rw [ttmFind, if_pos ha]
        constructor
        · intro h
          cases h
          exact ⟨[], p, rfl, ha, by simp⟩
        · rintro ⟨pre, post, hsplit, hm, hpre⟩
          cases pre with
          | nil =>
              simp only [List.nil_append, List.cons.injEq] at hsplit
              obtain ⟨rfl, rfl⟩ := hsplit
              rfl
          | cons b pre' =>
              injection hsplit with h1 h2
              subst h1
              exact absurd ha (hpre a (by simp))
      · rw [ttmFind, if_neg ha, ih]
        constructor
        · rintro ⟨pre, post, hsplit, hm, hpre⟩
          refine ⟨a :: pre, post, by rw [hsplit]; rfl, hm, ?_⟩
          intro i' hi'
          rcases List.mem_cons.mp hi' with rfl | h
          · exact ha
          · exact hpre i' h
        · rintro ⟨pre, post, hsplit, hm, hpre⟩
          cases pre with
          | nil =>
              simp only [List.nil_append, List.cons.injEq] at hsplit
              obtain ⟨rfl, -⟩ := hsplit
              exact absurd hm ha
          | cons b pre' =>
              injection hsplit with h1 h2
              subst h1
              exact ⟨pre', post, h2, hm, fun i' hi' => hpre i' (by simp [hi'])⟩

/-- Claim C1: at any non-halt configuration where find succeeds, the found
instruction is the first one in the program's declaration order whose state
equals the current state and whose input equals the symbol under the head
or is the wildcard; executing it overwrites the cell under the head with
the output symbol unless that is the no-write sentinel, moves the head
left, right or not at all per the instruction, and enters its next state. -/
theorem ttm_step_spec (m : TM) (i : Instr) (hstate : m.state ≠ Halt)
    (hfind : ttmFind m.prog m.state (headT m.right) = some i) :
    (∃ pre post, m.prog = pre ++ i :: post ∧
      Matches i m.state (headT m.right) ∧
      ∀ i' ∈ pre, ¬ Matches i' m.state (headT m.right)) ∧
    (ttmExecute m i).prog = m.prog ∧
    (ttmExecute m i).state = i.next ∧
    (match i.move with
     | Move.none =>
         (∀ k, leftCell (ttmExecute m i) k = leftCell m k) ∧
         (∀ k, rightCell (ttmExecute m i) k = writtenCell m i k)
     | Move.left =>
         (∀ k, leftCell (ttmExecute m i) k = leftCell m (k + 1)) ∧
         rightCell (ttmExecute m i) 0 = leftCell m 0 ∧
         (∀ k, rightCell (ttmExecute m i) (k + 1) = writtenCell m i k)
     | Move.right =>
         leftCell (ttmExecute m i) 0 = writtenCell m i 0 ∧
         (∀ k, leftCell (ttmExecute m i) (k + 1) = leftCell m k) ∧
         (∀ k, rightCell (ttmExecute m i) k = writtenCell m i (k + 1))) := by
  refine ⟨(ttmFind_first m.prog m.state (headT m.right) i).mp hfind, ?_, ?_, ?_⟩
  · cases hmv : i.move <;> simp [ttmExecute, hmv]
  · cases hmv : i.move <;> simp [ttmExecute, hmv]
  · cases hmv : i.move
    · refine ⟨?_, ?_, ?_⟩
      · intro k
        simp only [ttmExecute, hmv, leftCell]
        rw [reverse_dropLastT, getD_tail]
      · simp only [ttmExecute, hmv, rightCell, leftCell, prependT,
          List.getD_cons_zero]
        rw [lastT_getD]
      · intro k
        simp only [ttmExecute, hmv, rightCell, prependT, List.getD_cons_succ,
          writtenCell]
        rw [setT_getD]
    · refine ⟨?_, ?_⟩
      · intro k
        simp only [ttmExecute, hmv, leftCell]
      · intro k
        simp only [ttmExecute, hmv, rightCell, writtenCell]
        rw [setT_getD]
    · refine ⟨?_, ?_, ?_⟩
      · simp only [ttmExecute, hmv, leftCell, appendT, writtenCell]
        rw [show (m.left ++ [headT (setT i.output m.right)]).reverse =
          headT (setT i.output m.right) :: m.left.reverse from by simp,
          List.getD_cons_zero, headT_getD, setT_getD]
        simp [rightCell]
      · intro k
        simp only [ttmExecute, hmv, leftCell, appendT]
        rw [show (m.left ++ [headT (setT i.output m.right)]).reverse =
          headT (setT i.output m.right) :: m.left.reverse from by simp,
          List.getD_cons_succ]
      · intro k
        simp only [ttmExecute, hmv, rightCell, writtenCell]
        rw [dropFirstT_getD, setT_getD]

/-! ### Witnesses -/

/-- Witness for ttm_step_spec at the instruction counting a one. -/
theorem ttm_step_spec_witness :
    (∃ pre post, measureProg =
        pre ++ (⟨5, one, erased, Move.left, 6⟩ : Instr) :: post ∧
      Matches ⟨5, one, erased, Move.left, 6⟩ 5 '1' ∧
      ∀ i' ∈ pre, ¬ Matches i' 5 '1') ∧
    (ttmExecute ⟨measureProg, [], ['1'], 5⟩
      ⟨5, one, erased, Move.left, 6⟩).prog = measureProg ∧
    (ttmExecute ⟨measureProg, [], ['1'], 5⟩
      ⟨5, one, erased, Move.left, 6⟩).state = 6 ∧
    ((∀ k, leftCell (ttmExecute ⟨measureProg, [], ['1'], 5⟩
        ⟨5, one, erased, Move.left, 6⟩) k =
        leftCell ⟨measureProg, [], ['1'], 5⟩ (k + 1)) ∧
      rightCell (ttmExecute ⟨measureProg, [], ['1'], 5⟩
        ⟨5, one, erased, Move.left, 6⟩) 0 =
        leftCell ⟨measureProg, [], ['1'], 5⟩ 0 ∧
      (∀ k, rightCell (ttmExecute ⟨measureProg, [], ['1'], 5⟩
        ⟨5, one, erased, Move.left, 6⟩) (k + 1) =
        writtenCell ⟨measureProg, [], ['1'], 5⟩
          ⟨5, one, erased, Move.left, 6⟩ k)) :=
  ttm_step_spec ⟨measureProg, [], ['1'], 5⟩ ⟨5, one, erased, Move.left, 6⟩
    (by decide) (by decide)

/-- Witness for tape_ends_spec: the step of 0?*L0 at cell 0 fails. -/
theorem tape_ends_spec_witness :
    ctmStep ("0?*L0".toList) ⟨List.replicate 128 ' ', 0, '0'⟩ =
      CTMRes.err "Out of memory" :=
  tape_ends_spec.2.1 ("0?*L0".toList) (List.replicate 128 ' ') '0' '*' '0'
    (by decide)

/-- Witness for ctm_no_match_spec: program 01*NH on a blank tape. -/
theorem ctm_no_match_spec_witness :
    ctmFind ("01*NH".toList) '0'
      ((List.replicate 128 blank).getD 64 blank) = Option.none ∧
    (ctmStep ("01*NH".toList) ⟨List.replicate 128 blank, 64, '0'⟩ =
        CTMRes.err "Invalid program" ∧
      ctmNew (some ("huh?".toList)) = Except.error "Invalid program") :=
  ⟨by decide, ctm_no_match_spec ("01*NH".toList)
    ⟨List.replicate 128 blank, 64, '0'⟩ (by decide)⟩

/-- Witness for ctm_run_deterministic: two runs of 0?*NH with different
fuel return the same tape. -/
theorem ctm_run_det_witness :
    ctmRun ("0?*NH".toList) 5 ⟨ctmInitTape [], 64, '0'⟩ =
      some (Except.ok (List.replicate 128 ' ')) ∧
    ctmRun ("0?*NH".toList) 9 ⟨ctmInitTape [], 64, '0'⟩ =
      some (Except.ok (List.replicate 128 ' ')) ∧
    (Except.ok (List.replicate 128 ' ') : Except String (List Char)) =
      Except.ok (List.replicate 128 ' ') :=
  ⟨by decide, by decide,
    ctm_run_deterministic ("0?*NH".toList) 5 ⟨ctmInitTape [], 64, '0'⟩ 9
      (Except.ok (List.replicate 128 ' ')) (Except.ok (List.replicate 128 ' '))
      (by decide) (by decide)⟩

/-- Witness for ctm_ctor_spec at a well-formed five-character program. -/
theorem ctm_ctor_spec_witness :
    ((∃ e, ctmNew (some ("0?*NH".toList)) = Except.error e) ↔
      some ("0?*NH".toList) = Option.none ∨
      ∃ p, some ("0?*NH".toList) = some p ∧ ctmStrlen p % 5 ≠ 0) ∧
    (∀ p, some ("0?*NH".toList) = some p → ctmStrlen p % 5 = 0 →
      ctmNew (some ("0?*NH".toList)) = Except.ok p) :=
  ctm_ctor_spec (some ("0?*NH".toList))

/-- Witness for ctm_run_init_spec at a two-character input. -/
theorem ctm_run_init_spec_witness :
    (ctmInitTape ['a', 'b']).length = 128 ∧
    (∀ k, k < 64 → (ctmInitTape ['a', 'b']).getD k blank = blank) ∧
    (∀ k, 64 ≤ k → k < 128 →
      (ctmInitTape ['a', 'b']).getD k blank = ['a', 'b'].getD (k - 64) blank) ∧
    (∀ prog fuel, ctmRunFull prog ['a', 'b'] fuel =
      ctmRun prog fuel ⟨ctmInitTape ['a', 'b'], 64, '0'⟩) ∧
    (∀ prog fuel t, ctmRunFull prog ['a', 'b'] fuel = some (Except.ok t) →
      t.length = 128) :=
  ctm_run_init_spec ['a', 'b']
